import Mathlib

/-!
Verification of the mini-lsm storage engine core (block format, bloom filter,
write-ahead log, SST builder, memtable and storage state machine).

Byte strings are modelled as `List Nat` with every element below 256.  Machine
integer casts from the source (`as u16`, `as u32`) are modelled with explicit
`% 65536` / `% 4294967296`.  Fallible operations return `Option` or `Except`;
a Rust `assert!`/index panic is modelled as a distinct outcome from an `Err`.
-/

namespace MiniLsm

/-- Reasons carried by the `LsmError::Format(String)` variant.  The source
stores free-form strings; the exact messages used by the code are
`entry too large for block`, `missing block first key`, `index block too
large` and `invalid footer length`, modelled as an enumeration. -/
inductive FormatReason where
  | entryTooLargeForBlock
  | missingBlockFirstKey
  | indexBlockTooLarge
  | invalidFooterLength
deriving DecidableEq

/-- Error taxonomy of `error.rs` (`LsmError`).  `Io` and `Serialization`
payloads are dropped; `Format` carries a `FormatReason` instead of the
source's message string.  `AssertViolation` models a Rust `assert!` panic,
which in the source aborts rather than returning an `Err`. -/
inductive LsmError where
  | Io
  | Serialization
  | ChecksumMismatch (expected actual : Nat)
  | KeyNotFound
  | Format (reason : FormatReason)
  | AssertViolation
deriving DecidableEq

/-- Little-endian bytes of a u16 value (`put_u16_le`). -/
def u16le (n : Nat) : List Nat := [n % 256, n / 256 % 256]

/-- Little-endian bytes of a u32 value (`put_u32_le`). -/
def u32le (n : Nat) : List Nat :=
  [n % 256, n / 256 % 256, n / 65536 % 256, n / 16777216 % 256]

/-- Little-endian bytes of a u64 value (`put_u64_le`). -/
def u64le (n : Nat) : List Nat := u32le (n % 4294967296) ++ u32le (n / 4294967296)

/-- Reads a little-endian u16 from two bytes (`get_u16_le`). -/
def readU16le (a b : Nat) : Nat := a + 256 * b

/-- Reads consecutive little-endian u16 values from a byte list
(`chunks(SIZEOF_U16)` followed by `get_u16_le` in `Block::decode`); a
trailing odd byte is ignored (the source would panic there, and it never
arises on an encoded block). -/
def readPairs : List Nat → List Nat
  | a :: b :: rest => readU16le a b :: readPairs rest
  | _ => []

/-- One step of the standard (reflected, polynomial 0xEDB88320) CRC-32 used
by the `crc32fast` crate. -/
def crcStep (c : Nat) : Nat :=
  if c % 2 = 1 then Nat.xor (c / 2) 3988292384 else c / 2

/-- Folds one byte into a CRC-32 state. -/
def crcByte (c b : Nat) : Nat :=
  crcStep (crcStep (crcStep (crcStep (crcStep (crcStep (crcStep (crcStep (Nat.xor c b))))))))

/-- CRC-32 (IEEE) of a byte list, as computed by `crc32fast::Hasher`. -/
def crc32 (l : List Nat) : Nat :=
  Nat.xor (l.foldl crcByte 4294967295) 4294967295

/-- The constant `SIZEOF_U16` from `block.rs`. -/
def SIZEOF_U16 : Nat := 2

/-- A data block (`Block` in `block.rs`): raw entry bytes plus the entry
start offsets (stored as u16 values in the source, hence each below 65536
whenever produced by `BlockBuilder`). -/
structure Block where
  data : List Nat
  offsets : List Nat
deriving DecidableEq

/-- `Block::encode`: entry data, then each offset as u16 little-endian, then
the entry count as u16 little-endian (`offsets.len() as u16`). -/
def Block.encode (b : Block) : List Nat :=
  b.data ++ (b.offsets.map u16le).flatten ++ u16le (b.offsets.length % 65536)

/-- `Block::decode`: reads the trailing entry count, splits off the offset
array, and keeps the leading bytes as entry data.  Out-of-range indexing
(which would panic in the source) is modelled with `getD`; `Nat`
subtraction models the in-range arithmetic of a well-formed block. -/
def Block.decode (d : List Nat) : Block :=
  let num_of_elements := readU16le (d.getD (d.length - 2) 0) (d.getD (d.length - 1) 0)
  let data_end := d.length - SIZEOF_U16 - num_of_elements * SIZEOF_U16
  let offsets_raw := (d.drop data_end).take (d.length - SIZEOF_U16 - data_end)
  { data := d.take data_end, offsets := readPairs offsets_raw }

/-- `Block::get_entry`: slices the i-th entry (the last entry ends at the end
of `data`) and parses `key_len:u16le | key | value_len:u16le | value`. -/
def Block.get_entry (b : Block) (idx : Nat) : List Nat × List Nat :=
  let start := b.offsets.getD idx 0
  let stop := if idx + 1 < b.offsets.length then b.offsets.getD (idx + 1) 0 else b.data.length
  let entry := (b.data.drop start).take (stop - start)
  let key_len := readU16le (entry.getD 0 0) (entry.getD 1 0)
  let key := (entry.drop 2).take key_len
  let value_len := readU16le (entry.getD (2 + key_len) 0) (entry.getD (2 + key_len + 1) 0)
  let value := (entry.drop (2 + key_len + 2)).take value_len
  (key, value)

/-- Builder state of `BlockBuilder` in `block.rs`. -/
structure BlockBuilder where
  offsets : List Nat
  data : List Nat
  block_size : Nat
deriving DecidableEq

/-- `BlockBuilder::new`. -/
def BlockBuilder.new (block_size : Nat) : BlockBuilder :=
  { offsets := [], data := [], block_size := block_size }

/-- `BlockBuilder::is_empty`. -/
def BlockBuilder.is_empty (b : BlockBuilder) : Bool := b.offsets.isEmpty

/-- `BlockBuilder::add`.  Returns `none` for the `assert!(!key.is_empty())`
panic; otherwise `some (builder, accepted)`.  The pushed offset and the
stored key/value lengths are truncated to u16 exactly as the source's
`as u16` casts do. -/
def BlockBuilder.add (b : BlockBuilder) (key value : List Nat) : Option (BlockBuilder × Bool) :=
  if key.isEmpty then none
  else
    let entry_size := SIZEOF_U16 + key.length + SIZEOF_U16 + value.length
    let metadata_increase := SIZEOF_U16
    let total_size_after :=
      b.data.length + b.offsets.length * SIZEOF_U16 + entry_size + metadata_increase + SIZEOF_U16
    if total_size_after > b.block_size ∧ b.is_empty = false then
      some (b, false)
    else
      some ({ b with
                offsets := b.offsets ++ [b.data.length % 65536],
                data := b.data ++ u16le (key.length % 65536) ++ key
                          ++ u16le (value.length % 65536) ++ value }, true)

/-- `BlockBuilder::build`. -/
def BlockBuilder.build (b : BlockBuilder) : Block :=
  { data := b.data, offsets := b.offsets }

/-- Encoded bytes of one entry as written by `BlockBuilder::add`. -/
def entryBytes (kv : List Nat × List Nat) : List Nat :=
  u16le (kv.1.length % 65536) ++ kv.1 ++ u16le (kv.2.length % 65536) ++ kv.2

/-- Runs a builder history: every `add` must be accepted (`true`), otherwise
the history is not of the accepted kind and the run is `none`. -/
def addAll (b : BlockBuilder) : List (List Nat × List Nat) → Option BlockBuilder
  | [] => some b
  | kv :: rest =>
    match b.add kv.1 kv.2 with
    | some (b', true) => addAll b' rest
    | _ => none

/-- Offsets recorded for a list of entries whose data starts at `start`
(truncated to u16 as the source does). -/
def offsetsFrom (start : Nat) : List (List Nat × List Nat) → List Nat
  | [] => []
  | kv :: rest => start % 65536 :: offsetsFrom (start + (entryBytes kv).length) rest

theorem u16le_length (n : Nat) : (u16le n).length = 2 := rfl

theorem u32le_length (n : Nat) : (u32le n).length = 4 := rfl

theorem u64le_length (n : Nat) : (u64le n).length = 8 := rfl

theorem entryBytes_length (kv : List Nat × List Nat) :
    (entryBytes kv).length = 4 + kv.1.length + kv.2.length := by
  simp [entryBytes, u16le]
  omega

theorem readU16le_u16le (n : Nat) (h : n < 65536) :
    readU16le (n % 256) (n / 256 % 256) = n := by
  unfold readU16le
  omega

/-- The state produced by an accepted `BlockBuilder::add`. -/
def pushEntry (b : BlockBuilder) (key value : List Nat) : BlockBuilder :=
  { b with
      offsets := b.offsets ++ [b.data.length % 65536],
      data := b.data ++ u16le (key.length % 65536) ++ key
                ++ u16le (value.length % 65536) ++ value }

theorem BlockBuilder.add_eq (b : BlockBuilder) (key value : List Nat)
    (hk : key.isEmpty = false) :
    BlockBuilder.add b key value =
      if b.data.length + b.offsets.length * 2 + (2 + key.length + 2 + value.length) + 2 + 2
            > b.block_size
          ∧ b.offsets.isEmpty = false then
        some (b, false)
      else some (pushEntry b key value, true) := by
  simp only [BlockBuilder.add, BlockBuilder.is_empty, SIZEOF_U16, pushEntry, hk,
    Bool.false_eq_true, if_false]

theorem BlockBuilder.add_nil (b : BlockBuilder) (value : List Nat) :
    BlockBuilder.add b [] value = none := by
  simp [BlockBuilder.add]

theorem isEmpty_eq_false_of_ne_nil {l : List Nat} (h : l ≠ []) : l.isEmpty = false := by
  cases l with
  | nil => exact absurd rfl h
  | cons a t => rfl

/-- C7: `BlockBuilder::add` panics on an empty key; for a non-empty key it
appends the entry and returns `true` exactly when the builder is empty or
the projected encoded size (current data + 2 bytes per existing offset +
(2 + key_len + 2 + val_len) + 2 for the new offset + 2 for the count
field) does not exceed the target block size; an empty builder accepts any
entry. -/
theorem claim_C7 (b : BlockBuilder) (key value : List Nat) :
    BlockBuilder.add b [] value = none ∧
    (key ≠ [] →
      BlockBuilder.add b key value =
        if b.offsets = [] ∨
            b.data.length + 2 * b.offsets.length
              + (2 + key.length + 2 + value.length) + 2 + 2 ≤ b.block_size then
          some (pushEntry b key value, true)
        else some (b, false)) ∧
    (key ≠ [] → b.offsets = [] →
      (BlockBuilder.add b key value).map Prod.snd = some true) := by
  refine ⟨BlockBuilder.add_nil b value, ?_, ?_⟩
  · intro hk
    rw [BlockBuilder.add_eq b key value (isEmpty_eq_false_of_ne_nil hk)]
    by_cases ho : b.offsets = []
    · rw [if_neg (by simp [ho]), if_pos (Or.inl ho)]
    · by_cases hle :
          b.data.length + 2 * b.offsets.length
            + (2 + key.length + 2 + value.length) + 2 + 2 ≤ b.block_size
      · rw [if_neg (fun hc => by omega), if_pos (Or.inr hle)]
      · rw [if_pos ⟨by omega, isEmpty_eq_false_of_ne_nil ho⟩,
          if_neg (fun hc => hc.elim ho (fun hc' => hle hc'))]
  · intro hk ho
    rw [BlockBuilder.add_eq b key value (isEmpty_eq_false_of_ne_nil hk)]
    rw [if_neg (by simp [ho])]
    rfl

theorem getD_append_right_custom (l₁ l₂ : List Nat) (i : Nat) :
    (l₁ ++ l₂).getD (l₁.length + i) 0 = l₂.getD i 0 := by
  induction l₁ with
  | nil => simp
  | cons a t ih =>
    have h : (a :: t).length + i = (t.length + i) + 1 := by
      simp
      omega
    rw [h]
    simpa using ih

theorem take_append_len (l₁ l₂ : List Nat) : (l₁ ++ l₂).take l₁.length = l₁ := by
  induction l₁ with
  | nil => rfl
  | cons a t ih => simp [ih]

theorem drop_append_len (l₁ l₂ : List Nat) : (l₁ ++ l₂).drop l₁.length = l₂ := by
  induction l₁ with
  | nil => rfl
  | cons a t ih => simp [ih]

theorem flatten_map_u16le_length (l : List Nat) :
    ((l.map u16le).flatten).length = 2 * l.length := by
  induction l with
  | nil => rfl
  | cons a t ih =>
    simp [u16le] at *
    omega

theorem readPairs_flatten (l : List Nat) (h : ∀ x ∈ l, x < 65536) :
    readPairs ((l.map u16le).flatten) = l := by
  induction l with
  | nil => rfl
  | cons a t ih =>
    have ha : a < 65536 := h a (List.mem_cons_self a t)
    have ht : ∀ x ∈ t, x < 65536 := fun x hx => h x (List.mem_cons_of_mem a hx)
    simp only [List.map_cons, List.flatten_cons, u16le, List.cons_append, List.nil_append,
      readPairs]
    rw [readU16le_u16le a ha]
    show a :: readPairs ((t.map u16le).flatten) = a :: t
    rw [ih ht]

/-- Round-trip of the block byte layout: decoding an encoded block restores
the data bytes and the offset array exactly, provided the entry count fits
in the u16 count field (offset values are always below 65536 because the
builder stores them truncated). -/
theorem Block.decode_encode (b : Block) (hoff : ∀ x ∈ b.offsets, x < 65536)
    (hn : b.offsets.length < 65536) :
    Block.decode (Block.encode b) = b := by
  obtain ⟨data, offsets⟩ := b
  simp only at hoff hn
  have hmod : offsets.length % 65536 = offsets.length := Nat.mod_eq_of_lt hn
  have hflat : ((offsets.map u16le).flatten).length = 2 * offsets.length :=
    flatten_map_u16le_length offsets
  have henc : Block.encode ⟨data, offsets⟩
      = data ++ ((offsets.map u16le).flatten
          ++ [offsets.length % 256, offsets.length / 256 % 256]) := by
    simp [Block.encode, u16le, hmod]
  have hlen : (Block.encode ⟨data, offsets⟩).length = data.length + 2 * offsets.length + 2 := by
    rw [henc]
    simp [hflat]
    omega
  have e2 : (Block.encode ⟨data, offsets⟩).getD ((Block.encode ⟨data, offsets⟩).length - 2) 0
      = offsets.length % 256 := by
    have hi : (Block.encode ⟨data, offsets⟩).length - 2
        = data.length + (((offsets.map u16le).flatten).length + 0) := by
      rw [hlen, hflat]
      omega
    rw [hi, henc, getD_append_right_custom, getD_append_right_custom]
    rfl
  have e3 : (Block.encode ⟨data, offsets⟩).getD ((Block.encode ⟨data, offsets⟩).length - 1) 0
      = offsets.length / 256 % 256 := by
    have hi : (Block.encode ⟨data, offsets⟩).length - 1
        = data.length + (((offsets.map u16le).flatten).length + 1) := by
      rw [hlen, hflat]
      omega
    rw [hi, henc, getD_append_right_custom, getD_append_right_custom]
    rfl
  have hnum : readU16le (offsets.length % 256) (offsets.length / 256 % 256) = offsets.length :=
    readU16le_u16le offsets.length hn
  simp only [Block.decode, e2, e3, hnum, SIZEOF_U16]
  have hde : (Block.encode ⟨data, offsets⟩).length - 2 - offsets.length * 2 = data.length := by
    rw [hlen]
    omega
  rw [hde]
  have htk : (Block.encode ⟨data, offsets⟩).take data.length = data := by
    rw [henc]
    exact take_append_len _ _
  have hdp : (Block.encode ⟨data, offsets⟩).drop data.length
      = (offsets.map u16le).flatten ++ [offsets.length % 256, offsets.length / 256 % 256] := by
    rw [henc]
    exact drop_append_len _ _
  have hraw : (Block.encode ⟨data, offsets⟩).length - 2 - data.length
      = ((offsets.map u16le).flatten).length := by
    rw [hlen, hflat]
    omega
  rw [htk, hdp, hraw, take_append_len, readPairs_flatten offsets hoff]

theorem add_true_eq (b : BlockBuilder) (key value : List Nat) (x : BlockBuilder)
    (h : BlockBuilder.add b key value = some (x, true)) : x = pushEntry b key value := by
  by_cases hk : key.isEmpty = true
  · unfold BlockBuilder.add at h
    rw [if_pos hk] at h
    cases h
  · have hk' : key.isEmpty = false := by
      revert hk
      cases key.isEmpty <;> simp
    rw [BlockBuilder.add_eq b key value hk'] at h
    by_cases hc : b.data.length + b.offsets.length * 2
        + (2 + key.length + 2 + value.length) + 2 + 2 > b.block_size
        ∧ b.offsets.isEmpty = false
    · rw [if_pos hc] at h
      simp at h
    · rw [if_neg hc] at h
      simp only [Option.some.injEq, Prod.mk.injEq] at h
      exact h.1.symm

theorem addAll_sound (es : List (List Nat × List Nat)) (b b' : BlockBuilder)
    (h : addAll b es = some b') :
    b'.data = b.data ++ (es.map entryBytes).flatten ∧
    b'.offsets = b.offsets ++ offsetsFrom b.data.length es ∧
    b'.block_size = b.block_size := by
  induction es generalizing b with
  | nil =>
    simp only [addAll, Option.some.injEq] at h
    subst h
    simp [offsetsFrom]
  | cons kv rest ih =>
    simp only [addAll] at h
    cases hadd : b.add kv.1 kv.2 with
    | none =>
      rw [hadd] at h
      cases h
    | some p =>
      obtain ⟨b₁, acc⟩ := p
      rw [hadd] at h
      cases acc with
      | false => cases h
      | true =>
        have hb₁ : b₁ = pushEntry b kv.1 kv.2 := add_true_eq _ _ _ _ hadd
        subst hb₁
        obtain ⟨h1, h2, h3⟩ := ih (pushEntry b kv.1 kv.2) h
        have hpd : (pushEntry b kv.1 kv.2).data = b.data ++ entryBytes kv := by
          simp [pushEntry, entryBytes]
        have hpl : (pushEntry b kv.1 kv.2).data.length
            = b.data.length + (entryBytes kv).length := by
          rw [hpd]
          simp
        refine ⟨?_, ?_, ?_⟩
        · rw [h1, hpd]
          simp [List.append_assoc]
        · rw [h2, hpl]
          show (b.offsets ++ [b.data.length % 65536])
              ++ offsetsFrom (b.data.length + (entryBytes kv).length) rest
            = b.offsets ++ offsetsFrom b.data.length (kv :: rest)
          rw [offsetsFrom]
          simp [List.append_assoc]
        · rw [h3]
          rfl

theorem offsetsFrom_length (start : Nat) (es : List (List Nat × List Nat)) :
    (offsetsFrom start es).length = es.length := by
  induction es generalizing start with
  | nil => rfl
  | cons kv rest ih => simp [offsetsFrom, ih]

theorem offsetsFrom_mem_lt (start : Nat) (es : List (List Nat × List Nat)) :
    ∀ x ∈ offsetsFrom start es, x < 65536 := by
  induction es generalizing start with
  | nil => simp [offsetsFrom]
  | cons kv rest ih =>
    intro x hx
    simp only [offsetsFrom, List.mem_cons] at hx
    rcases hx with hx | hx
    · subst hx
      exact Nat.mod_lt _ (by omega)
    · exact ih _ x hx

theorem offsetsFrom_getD (start : Nat) (es : List (List Nat × List Nat)) (i : Nat)
    (hi : i < es.length) :
    (offsetsFrom start es).getD i 0
      = (start + ((es.take i).map entryBytes).flatten.length) % 65536 := by
  induction es generalizing start i with
  | nil => exact absurd hi (by simp)
  | cons kv rest ih =>
    cases i with
    | zero => simp [offsetsFrom]
    | succ n =>
      have hn : n < rest.length := by simpa using hi
      simp only [offsetsFrom, List.getD_cons_succ]
      rw [ih (start + (entryBytes kv).length) n hn]
      congr 1
      simp [List.take_succ_cons]
      omega

/-- Side conditions under which none of the source's `as u16` casts truncate
for a given entry history: the entry count, every key and value length, and
every entry start offset fit in 16 bits. -/
def fitsU16 (es : List (List Nat × List Nat)) : Prop :=
  es.length < 65536 ∧
  (∀ kv ∈ es, kv.1.length < 65536 ∧ kv.2.length < 65536) ∧
  (∀ i, i < es.length → ((es.take i).map entryBytes).flatten.length < 65536)

instance (es : List (List Nat × List Nat)) : Decidable (fitsU16 es) := by
  unfold fitsU16
  infer_instance

theorem getD_append_self (l₁ l₂ : List Nat) : (l₁ ++ l₂).getD l₁.length 0 = l₂.getD 0 0 := by
  have h := getD_append_right_custom l₁ l₂ 0
  rw [Nat.add_zero] at h
  exact h

theorem getD_append_self1 (l₁ l₂ : List Nat) :
    (l₁ ++ l₂).getD (l₁.length + 1) 0 = l₂.getD 1 0 :=
  getD_append_right_custom l₁ l₂ 1

theorem drop_append_add (l₁ l₂ : List Nat) (j : Nat) :
    (l₁ ++ l₂).drop (l₁.length + j) = l₂.drop j := by
  induction l₁ with
  | nil => simp
  | cons a t ih =>
    have h : (a :: t).length + j = (t.length + j) + 1 := by
      simp
      omega
    rw [h]
    rw [List.cons_append, List.drop_succ_cons]
    exact ih

theorem entryBytes_form (k v : List Nat) (hk16 : k.length < 65536) (hv16 : v.length < 65536) :
    entryBytes (k, v)
      = k.length % 256 :: k.length / 256 % 256
          :: (k ++ (v.length % 256 :: v.length / 256 % 256 :: v)) := by
  simp [entryBytes, u16le, Nat.mod_eq_of_lt hk16, Nat.mod_eq_of_lt hv16]

theorem drop_two_cons (a b : Nat) (t : List Nat) : (a :: b :: t).drop 2 = t := rfl

theorem get_entry_concat (P C R offs : List Nat) (i : Nat) (k v : List Nat)
    (hC : C = entryBytes (k, v))
    (hk16 : k.length < 65536) (hv16 : v.length < 65536)
    (hstart : offs.getD i 0 = P.length)
    (hstop : (if i + 1 < offs.length then offs.getD (i + 1) 0 else (P ++ (C ++ R)).length)
        = P.length + C.length) :
    Block.get_entry ⟨P ++ (C ++ R), offs⟩ i = (k, v) := by
  simp only [Block.get_entry]
  rw [hstart, hstop]
  have harith : P.length + C.length - P.length = C.length := by omega
  rw [harith, drop_append_len, take_append_len]
  subst hC
  rw [entryBytes_form k v hk16 hv16]
  simp only [List.getD_cons_zero, List.getD_cons_succ]
  rw [readU16le_u16le k.length hk16]
  have hi1 : 2 + k.length = k.length + 1 + 1 := by omega
  rw [hi1]
  simp only [List.getD_cons_succ]
  rw [getD_append_self, getD_append_self1]
  simp only [List.getD_cons_zero, List.getD_cons_succ]
  rw [readU16le_u16le v.length hv16]
  have hi3 : k.length + 1 + 1 + 2 = k.length + 2 + 1 + 1 := by omega
  rw [hi3]
  simp only [List.drop_succ_cons]
  rw [drop_append_add, drop_two_cons, List.take_length]
  simp only [List.drop_zero]
  rw [take_append_len]

theorem get_entry_spec (es : List (List Nat × List Nat)) (h16 : fitsU16 es)
    (i : Nat) (hi : i < es.length) :
    Block.get_entry ⟨(es.map entryBytes).flatten, offsetsFrom 0 es⟩ i = es.get ⟨i, hi⟩ := by
  obtain ⟨hcnt, hkv, hpre⟩ := h16
  have hmem : es.get ⟨i, hi⟩ ∈ es := List.get_mem es i hi
  obtain ⟨hk16, hv16⟩ := hkv _ hmem
  have hdropi : es.drop i = es.get ⟨i, hi⟩ :: es.drop (i + 1) := by
    rw [List.get_eq_getElem]
    exact List.drop_eq_getElem_cons hi
  have hsplit : es = es.take i ++ es.get ⟨i, hi⟩ :: es.drop (i + 1) := by
    conv_lhs => rw [← List.take_append_drop i es]
    rw [hdropi]
  have hdata : (es.map entryBytes).flatten
      = ((es.take i).map entryBytes).flatten
        ++ (entryBytes (es.get ⟨i, hi⟩) ++ ((es.drop (i + 1)).map entryBytes).flatten) := by
    conv_lhs => rw [hsplit]
    rw [List.map_append, List.flatten_append, List.map_cons, List.flatten_cons]
  have hplen : ((es.take i).map entryBytes).flatten.length < 65536 := hpre i hi
  have hstart : (offsetsFrom 0 es).getD i 0 = ((es.take i).map entryBytes).flatten.length := by
    rw [offsetsFrom_getD 0 es i hi, Nat.zero_add, Nat.mod_eq_of_lt hplen]
  have holen : (offsetsFrom 0 es).length = es.length := offsetsFrom_length 0 es
  have htake : es.take (i + 1) = es.take i ++ [es.get ⟨i, hi⟩] := by
    have h := (List.take_concat_get es i hi).symm
    rw [List.concat_eq_append] at h
    rw [List.get_eq_getElem]
    exact h
  have hstop : (if i + 1 < (offsetsFrom 0 es).length then (offsetsFrom 0 es).getD (i + 1) 0
        else (((es.take i).map entryBytes).flatten
          ++ (entryBytes (es.get ⟨i, hi⟩) ++ ((es.drop (i + 1)).map entryBytes).flatten)).length)
      = ((es.take i).map entryBytes).flatten.length + (entryBytes (es.get ⟨i, hi⟩)).length := by
    by_cases hlt : i + 1 < es.length
    · rw [if_pos (by rw [holen]; exact hlt)]
      rw [offsetsFrom_getD 0 es (i + 1) hlt, Nat.zero_add]
      have hb := hpre (i + 1) hlt
      rw [htake] at hb ⊢
      simp only [List.map_append, List.flatten_append, List.length_append, List.map_cons,
        List.map_nil, List.flatten_cons, List.flatten_nil, List.append_nil] at hb ⊢
      omega
    · rw [if_neg (by rw [holen]; exact hlt)]
      have hdrop : es.drop (i + 1) = [] := by
        have hieq : i + 1 = es.length := by omega
        rw [hieq]
        exact List.drop_length es
      rw [hdrop]
      simp
  rw [hdata]
  exact get_entry_concat _ _ _ _ i _ _ rfl hk16 hv16 hstart hstop

/-- C6 (amended): for every accepted builder history in which every key and
value length, every entry start offset and the entry count fit in 16 bits
(the source truncates them with `as u16`), the built block round-trips
byte-identically through encode/decode and `get_entry i` returns exactly
the i-th entry, the last entry ending at the end of the data bytes. -/
theorem claim_C6 (block_size : Nat) (es : List (List Nat × List Nat)) (b' : BlockBuilder)
    (hrun : addAll (BlockBuilder.new block_size) es = some b')
    (h16 : fitsU16 es) :
    Block.decode (Block.encode b'.build) = b'.build ∧
    ∀ i, ∀ hi : i < es.length,
      Block.get_entry (Block.decode (Block.encode b'.build)) i = es.get ⟨i, hi⟩ := by
  obtain ⟨hdata, hoffs, hbs⟩ := addAll_sound es _ b' hrun
  have hB : b'.build = ⟨(es.map entryBytes).flatten, offsetsFrom 0 es⟩ := by
    simp only [BlockBuilder.build, BlockBuilder.new] at hdata hoffs ⊢
    rw [hdata, hoffs]
    simp
  have hvals : ∀ x ∈ offsetsFrom 0 es, x < 65536 := offsetsFrom_mem_lt 0 es
  have hcnt : (offsetsFrom 0 es).length < 65536 := by
    rw [offsetsFrom_length]
    exact h16.1
  have hrt : Block.decode (Block.encode b'.build) = b'.build := by
    rw [hB]
    exact Block.decode_encode _ hvals hcnt
  refine ⟨hrt, fun i hi => ?_⟩
  rw [hrt, hB]
  exact get_entry_spec es h16 i hi

theorem claim_C6_witness :
    Block.decode (Block.encode (BlockBuilder.build
        { offsets := [0, 6], data := [1, 0, 107, 1, 0, 118, 1, 0, 108, 0, 0],
          block_size := 4096 }))
      = BlockBuilder.build
        { offsets := [0, 6], data := [1, 0, 107, 1, 0, 118, 1, 0, 108, 0, 0],
          block_size := 4096 } ∧
    Block.get_entry (Block.decode (Block.encode (BlockBuilder.build
        { offsets := [0, 6], data := [1, 0, 107, 1, 0, 118, 1, 0, 108, 0, 0],
          block_size := 4096 }))) 0
      = ([107], [118]) := by
  have h := claim_C6 4096 [([107], [118]), ([108], [])]
    { offsets := [0, 6], data := [1, 0, 107, 1, 0, 118, 1, 0, 108, 0, 0], block_size := 4096 }
    (by decide) (by decide)
  exact ⟨h.1, h.2 0 (by decide)⟩

theorem addAll_cons_of_add (b b₁ : BlockBuilder) (k v : List Nat)
    (rest : List (List Nat × List Nat))
    (h : BlockBuilder.add b k v = some (b₁, true)) :
    addAll b ((k, v) :: rest) = addAll b₁ rest := by
  simp only [addAll]
  rw [h]

theorem addAll_nil (b : BlockBuilder) : addAll b [] = some b := rfl

theorem getD_two_prefix0 (a b : Nat) (t : List Nat) : ([a, b] ++ t).getD 0 0 = a := rfl

theorem getD_two_prefix1 (a b : Nat) (t : List Nat) : ([a, b] ++ t).getD 1 0 = b := rfl

theorem readU16le_zero : readU16le 0 0 = 0 := rfl

/-- C6 as literally stated is false: an empty builder accepts a single entry
whose key is 65536 bytes long, but the stored key length truncates to 0,
so `get_entry 0` of the decoded block returns an empty key instead of the
key that was added. -/
theorem claim_C6_counterexample :
    addAll (BlockBuilder.new 4096) [(List.replicate 65536 97, [])]
      = some { offsets := [0], data := [0, 0] ++ (List.replicate 65536 97 ++ [0, 0]),
               block_size := 4096 } ∧
    (Block.get_entry (Block.decode (Block.encode (BlockBuilder.build
        { offsets := [0], data := [0, 0] ++ (List.replicate 65536 97 ++ [0, 0]),
          block_size := 4096 }))) 0).1 = [] ∧
    (List.replicate 65536 97 : List Nat) ≠ [] := by
  have hlen0 : (List.replicate 65536 97 : List Nat).length = 65536 := by
    rw [List.length_replicate]
  generalize hgen : (List.replicate 65536 97 : List Nat) = rep
  rw [hgen] at hlen0
  have hrepnil : rep ≠ [] := by
    intro h
    rw [h] at hlen0
    exact absurd hlen0 (by decide)
  refine ⟨?_, ?_, hrepnil⟩
  · have hpe : pushEntry (BlockBuilder.new 4096) rep []
        = { offsets := [0], data := [0, 0] ++ (rep ++ [0, 0]), block_size := 4096 } := by
      simp only [pushEntry, BlockBuilder.new, u16le, hlen0, List.length_nil,
        List.nil_append, List.append_nil, Nat.mod_self, Nat.zero_mod, Nat.zero_div,
        List.cons_append, List.append_assoc]
    have hadd : BlockBuilder.add (BlockBuilder.new 4096) rep []
        = some (pushEntry (BlockBuilder.new 4096) rep [], true) := by
      rw [BlockBuilder.add_eq _ _ _ (isEmpty_eq_false_of_ne_nil hrepnil)]
      have hnot : ¬ ((BlockBuilder.new 4096).data.length
          + (BlockBuilder.new 4096).offsets.length * 2
          + (2 + rep.length + 2 + ([] : List Nat).length) + 2 + 2
            > (BlockBuilder.new 4096).block_size
          ∧ (BlockBuilder.new 4096).offsets.isEmpty = false) := by
        intro hc
        exact absurd hc.2 (by decide)
      rw [if_neg hnot]
    rw [addAll_cons_of_add _ _ _ _ _ hadd, hpe, addAll_nil]
  · have hrt : Block.decode (Block.encode (BlockBuilder.build
        { offsets := [0], data := [0, 0] ++ (rep ++ [0, 0]), block_size := 4096 }))
        = BlockBuilder.build
          { offsets := [0], data := [0, 0] ++ (rep ++ [0, 0]), block_size := 4096 } :=
      Block.decode_encode _ (by simp [BlockBuilder.build]) (by simp [BlockBuilder.build])
    rw [hrt]
    show (Block.get_entry
        { data := [0, 0] ++ (rep ++ [0, 0]), offsets := [0] } 0).1 = []
    simp only [Block.get_entry]
    simp only [List.getD_cons_zero, List.length_cons, List.length_nil]
    rw [if_neg (by omega)]
    rw [List.drop_zero, Nat.sub_zero, List.take_length]
    rw [getD_two_prefix0, getD_two_prefix1, readU16le_zero, List.take_zero]

theorem claim_C7_witness :
    BlockBuilder.add (BlockBuilder.new 16) [5] [7] =
      some ({ offsets := [0], data := [1, 0, 5, 1, 0, 7], block_size := 16 }, true) ∧
    BlockBuilder.add (BlockBuilder.new 16) [] [7] = none := by
  constructor
  · have h := (claim_C7 (BlockBuilder.new 16) [5] [7]).2.1 (by decide)
    rw [h]
    decide
  · exact (claim_C7 (BlockBuilder.new 16) [] [7]).1

/-- Bloom filter state (`Bloom` in `bloom.rs`): filter bytes and the number
of hash probes `k` (a u8 in the source, always in `[1, 30]` when built). -/
structure Bloom where
  filter : List Nat
  k : Nat
deriving DecidableEq

/-- Sets one filter bit (`filter[bit_pos / 8] |= 1 << (bit_pos % 8)`). -/
def setBit (l : List Nat) (pos : Nat) : List Nat :=
  l.set (pos / 8) (Nat.lor (l.getD (pos / 8) 0) (Nat.shiftLeft 1 (pos % 8)))

/-- The inner probe loop of `Bloom::build_from_keys`: sets the bit at
`h % nbits`, then advances `h` by `delta` with u32 wrap-around, `k` times. -/
def probeLoop (l : List Nat) (h delta nbits : Nat) : Nat → List Nat
  | 0 => l
  | j + 1 => probeLoop (setBit l (h % nbits)) ((h + delta) % 4294967296) delta nbits j

/-- The derived probe stride `delta = (h >> 17) | (h << 15)` computed on u32
(the left shift wraps). -/
def bloomDelta (h : Nat) : Nat :=
  Nat.lor (Nat.shiftRight h 17) (Nat.shiftLeft h 15 % 4294967296)

/-- `Bloom::build_from_keys`.  The 32-bit hash (`farmhash::fingerprint32` in
the source) is a parameter; its result is reduced mod 2^32 as a u32 value.
The source computes `k` as `(bits_per_key as f64 * 0.69) as u8` and clamps
it to `[1, 30]`; the float product is modelled as the exact rational floor
with the float-to-u8 cast saturating at 255, which the clamp makes
indistinguishable from the f64 computation. -/
def Bloom.build_from_keys (hash : List Nat → Nat) (keys : List (List Nat))
    (bits_per_key : Nat) : Bloom :=
  let k0 := min (bits_per_key * 69 / 100) 255
  let k := min (max k0 1) 30
  let nbits0 := max (keys.length * bits_per_key) 64
  let nbytes := (nbits0 + 7) / 8
  let nbits := nbytes * 8
  let filter := keys.foldl (fun l key =>
    let h := hash key % 4294967296
    let delta := bloomDelta h
    probeLoop l h delta nbits k) (List.replicate nbytes 0)
  { filter := filter, k := k }

/-- The probe-check loop of `Bloom::may_contain`: fails as soon as one probe
bit is unset. -/
def checkLoop (l : List Nat) (h delta nbits : Nat) : Nat → Bool
  | 0 => true
  | j + 1 =>
    let bit_pos := h % nbits
    if Nat.land (l.getD (bit_pos / 8) 0) (Nat.shiftLeft 1 (bit_pos % 8)) = 0 then false
    else checkLoop l ((h + delta) % 4294967296) delta nbits j

/-- `Bloom::may_contain`. -/
def Bloom.may_contain (hash : List Nat → Nat) (bl : Bloom) (key : List Nat) : Bool :=
  let nbits := bl.filter.length * 8
  if nbits = 0 then false
  else
    let h := hash key % 4294967296
    let delta := bloomDelta h
    checkLoop bl.filter h delta nbits bl.k

/-- `Bloom::encode`: the filter bytes followed by `k` as a single byte. -/
def Bloom.encode (bl : Bloom) : List Nat := bl.filter ++ [bl.k]

/-- `Bloom::decode`: splits the last byte off as `k`. -/
def Bloom.decode (buf : List Nat) : Bloom :=
  { filter := buf.take (buf.length - 1), k := buf.getD (buf.length - 1) 0 }

/-- Bit-inclusion between two filters of equal length. -/
def BitsLE (f g : List Nat) : Prop :=
  f.length = g.length ∧ ∀ i j, (f.getD i 0).testBit j = true → (g.getD i 0).testBit j = true

theorem bitsLE_refl (f : List Nat) : BitsLE f f := ⟨rfl, fun _ _ h => h⟩

theorem bitsLE_trans {f g m : List Nat} (h1 : BitsLE f g) (h2 : BitsLE g m) : BitsLE f m :=
  ⟨h1.1.trans h2.1, fun i j h => h2.2 i j (h1.2 i j h)⟩

theorem shiftLeft_one_eq (j : Nat) : Nat.shiftLeft 1 j = 2 ^ j := by
  show (1 : Nat) <<< j = 2 ^ j
  rw [Nat.shiftLeft_eq, one_mul]

theorem land_shift_eq_zero_iff (x j : Nat) :
    Nat.land x (Nat.shiftLeft 1 j) = 0 ↔ x.testBit j = false := by
  rw [shiftLeft_one_eq]
  have ha : Nat.land x (2 ^ j) = (x.testBit j).toNat * 2 ^ j := Nat.and_two_pow x j
  rw [ha]
  cases h : x.testBit j
  · simp
  · simp

theorem getD_set (l : List Nat) (n i v : Nat) :
    (l.set n v).getD i 0 = if n = i ∧ n < l.length then v else l.getD i 0 := by
  induction l generalizing n i with
  | nil => simp
  | cons a t ih =>
    cases n with
    | zero =>
      cases i with
      | zero => simp
      | succ j => simp
    | succ m =>
      cases i with
      | zero => simp
      | succ j =>
        show (t.set m v).getD j 0 = _
        rw [ih]
        have hiff : (m = j ∧ m < t.length) ↔ (m + 1 = j + 1 ∧ m + 1 < (a :: t).length) := by
          simp only [List.length_cons]
          omega
        by_cases hc : m = j ∧ m < t.length
        · rw [if_pos hc, if_pos (hiff.1 hc)]
        · rw [if_neg hc, if_neg (fun hx => hc (hiff.2 hx))]
          rfl

theorem length_setBit (l : List Nat) (pos : Nat) : (setBit l pos).length = l.length := by
  simp [setBit]

theorem bitsLE_setBit (l : List Nat) (pos : Nat) : BitsLE l (setBit l pos) := by
  refine ⟨(length_setBit l pos).symm, fun i j h => ?_⟩
  unfold setBit
  rw [getD_set]
  by_cases hc : pos / 8 = i ∧ pos / 8 < l.length
  · rw [if_pos hc]
    obtain ⟨hi, _⟩ := hc
    subst hi
    show ((l.getD (pos / 8) 0) ||| (Nat.shiftLeft 1 (pos % 8))).testBit j = true
    rw [Nat.testBit_lor, h]
    rfl
  · rw [if_neg hc]
    exact h

theorem testBit_setBit_self (l : List Nat) (pos : Nat) (hlt : pos / 8 < l.length) :
    ((setBit l pos).getD (pos / 8) 0).testBit (pos % 8) = true := by
  unfold setBit
  rw [getD_set, if_pos ⟨rfl, hlt⟩]
  show ((l.getD (pos / 8) 0) ||| (Nat.shiftLeft 1 (pos % 8))).testBit (pos % 8) = true
  rw [Nat.testBit_lor]
  rw [shiftLeft_one_eq, Nat.testBit_two_pow_self, Bool.or_true]

theorem bitsLE_probeLoop (l : List Nat) (h delta nbits : Nat) (k : Nat) :
    BitsLE l (probeLoop l h delta nbits k) := by
  induction k generalizing l h with
  | zero => exact bitsLE_refl l
  | succ j ih =>
    exact bitsLE_trans (bitsLE_setBit l (h % nbits)) (ih (setBit l (h % nbits)) _)

theorem checkLoop_mono (f g : List Nat) (h delta nbits : Nat) (k : Nat)
    (hle : BitsLE f g) (hchk : checkLoop f h delta nbits k = true) :
    checkLoop g h delta nbits k = true := by
  induction k generalizing h with
  | zero => rfl
  | succ j ih =>
    unfold checkLoop at hchk ⊢
    by_cases hc : Nat.land (f.getD (h % nbits / 8) 0) (Nat.shiftLeft 1 (h % nbits % 8)) = 0
    · rw [if_pos hc] at hchk
      cases hchk
    · rw [if_neg hc] at hchk
      have hf : (f.getD (h % nbits / 8) 0).testBit (h % nbits % 8) = true := by
        rcases hb : (f.getD (h % nbits / 8) 0).testBit (h % nbits % 8) with _ | _
        · exact absurd ((land_shift_eq_zero_iff _ _).2 hb) hc
        · rfl
      have hg := hle.2 _ _ hf
      have hgc : ¬ Nat.land (g.getD (h % nbits / 8) 0) (Nat.shiftLeft 1 (h % nbits % 8)) = 0 := by
        intro h0
        rw [(land_shift_eq_zero_iff _ _).1 h0] at hg
        cases hg
      rw [if_neg hgc]
      exact ih _ hchk

theorem checkLoop_probeLoop (l : List Nat) (h delta nbits : Nat) (k : Nat)
    (hnb : nbits = l.length * 8) (hpos : 0 < l.length) :
    checkLoop (probeLoop l h delta nbits k) h delta nbits k = true := by
  induction k generalizing l h with
  | zero => rfl
  | succ j ih =>
    have hmod : h % nbits < nbits := Nat.mod_lt h (by rw [hnb]; omega)
    have hdiv : h % nbits / 8 < l.length := by
      have h8 : h % nbits < l.length * 8 := by
        rw [← hnb]
        exact hmod
      omega
    have hset : ((setBit l (h % nbits)).getD (h % nbits / 8) 0).testBit (h % nbits % 8) = true :=
      testBit_setBit_self l (h % nbits) hdiv
    have hP := (bitsLE_probeLoop (setBit l (h % nbits)) ((h + delta) % 4294967296)
      delta nbits j).2 _ _ hset
    show checkLoop (probeLoop l h delta nbits (j + 1)) h delta nbits (j + 1) = true
    simp only [probeLoop, checkLoop]
    have hne : ¬ Nat.land
        ((probeLoop (setBit l (h % nbits)) ((h + delta) % 4294967296) delta nbits j).getD
          (h % nbits / 8) 0)
        (Nat.shiftLeft 1 (h % nbits % 8)) = 0 := by
      intro h0
      rw [(land_shift_eq_zero_iff _ _).1 h0] at hP
      cases hP
    rw [if_neg hne]
    exact ih (setBit l (h % nbits)) ((h + delta) % 4294967296)
      (by rw [length_setBit]; exact hnb) (by rw [length_setBit]; exact hpos)

/-- One build step of the key fold in `Bloom::build_from_keys`. -/
def buildStep (hash : List Nat → Nat) (nbits k : Nat) (l : List Nat) (key : List Nat) :
    List Nat :=
  probeLoop l (hash key % 4294967296) (bloomDelta (hash key % 4294967296)) nbits k

theorem bitsLE_buildFold (hash : List Nat → Nat) (nbits k : Nat)
    (keys : List (List Nat)) (l : List Nat) :
    BitsLE l (keys.foldl (buildStep hash nbits k) l) := by
  induction keys generalizing l with
  | nil => exact bitsLE_refl l
  | cons a rest ih =>
    exact bitsLE_trans (bitsLE_probeLoop l _ _ nbits k) (ih (buildStep hash nbits k l a))

theorem bloom_decode_encode (bl : Bloom) : Bloom.decode (Bloom.encode bl) = bl := by
  obtain ⟨filter, k⟩ := bl
  unfold Bloom.encode Bloom.decode
  have hlen : (filter ++ [k]).length - 1 = filter.length := by
    simp
  rw [hlen]
  rw [take_append_len, getD_append_self]
  rfl

theorem checkLoop_foldl (hash : List Nat → Nat) (nbits k : Nat) (init : List Nat)
    (keys : List (List Nat)) (key : List Nat) (hmem : key ∈ keys)
    (hnb : nbits = init.length * 8) (hpos : 0 < init.length) :
    checkLoop (keys.foldl (buildStep hash nbits k) init) (hash key % 4294967296)
      (bloomDelta (hash key % 4294967296)) nbits k = true := by
  induction keys generalizing init with
  | nil => cases hmem
  | cons a rest ih =>
    rw [List.foldl_cons]
    have hlen_step : (buildStep hash nbits k init a).length = init.length :=
      ((bitsLE_probeLoop init _ _ nbits k).1).symm
    rcases List.mem_cons.1 hmem with hk | hk
    · subst hk
      have hchk : checkLoop (buildStep hash nbits k init key) (hash key % 4294967296)
          (bloomDelta (hash key % 4294967296)) nbits k = true :=
        checkLoop_probeLoop init (hash key % 4294967296)
          (bloomDelta (hash key % 4294967296)) nbits k hnb hpos
      exact checkLoop_mono _ _ _ _ _ _
        (bitsLE_buildFold hash nbits k rest (buildStep hash nbits k init key)) hchk
    · exact ih (buildStep hash nbits k init a) hk (by rw [hlen_step]; exact hnb)
        (by rw [hlen_step]; exact hpos)

theorem build_from_keys_filter (hash : List Nat → Nat) (keys : List (List Nat)) (bpk : Nat) :
    (Bloom.build_from_keys hash keys bpk).filter
      = keys.foldl
          (buildStep hash ((max (keys.length * bpk) 64 + 7) / 8 * 8)
            (min (max (min (bpk * 69 / 100) 255) 1) 30))
          (List.replicate ((max (keys.length * bpk) 64 + 7) / 8) 0) := rfl

theorem build_from_keys_k (hash : List Nat → Nat) (keys : List (List Nat)) (bpk : Nat) :
    (Bloom.build_from_keys hash keys bpk).k
      = min (max (min (bpk * 69 / 100) 255) 1) 30 := rfl

theorem build_sound (hash : List Nat → Nat) (keys : List (List Nat)) (bpk : Nat)
    (key : List Nat) (hmem : key ∈ keys) :
    Bloom.may_contain hash (Bloom.build_from_keys hash keys bpk) key = true := by
  have h64 : 64 ≤ max (keys.length * bpk) 64 := Nat.le_max_right _ _
  have hchk := checkLoop_foldl hash ((max (keys.length * bpk) 64 + 7) / 8 * 8)
      (min (max (min (bpk * 69 / 100) 255) 1) 30)
      (List.replicate ((max (keys.length * bpk) 64 + 7) / 8) 0) keys key hmem
      (by rw [List.length_replicate]) (by rw [List.length_replicate]; omega)
  have hlen : (Bloom.build_from_keys hash keys bpk).filter.length
      = (max (keys.length * bpk) 64 + 7) / 8 := by
    rw [build_from_keys_filter]
    rw [← (bitsLE_buildFold hash ((max (keys.length * bpk) 64 + 7) / 8 * 8)
      (min (max (min (bpk * 69 / 100) 255) 1) 30) keys
      (List.replicate ((max (keys.length * bpk) 64 + 7) / 8) 0)).1]
    rw [List.length_replicate]
  unfold Bloom.may_contain
  rw [hlen, build_from_keys_filter, build_from_keys_k]
  rw [if_neg (by omega)]
  exact hchk

/-- C5: Bloom soundness (no false negatives).  For every hash function,
every key list, every bits_per_key and every key in the list, the filter
built by `Bloom::build_from_keys` answers `may_contain = true`, and still
does after an encode/decode round trip of the filter bytes. -/
theorem claim_C5 (hash : List Nat → Nat) (keys : List (List Nat)) (bits_per_key : Nat)
    (key : List Nat) (hmem : key ∈ keys) :
    Bloom.may_contain hash (Bloom.build_from_keys hash keys bits_per_key) key = true ∧
    Bloom.may_contain hash (Bloom.decode (Bloom.encode
        (Bloom.build_from_keys hash keys bits_per_key))) key = true := by
  have h1 := build_sound hash keys bits_per_key key hmem
  exact ⟨h1, by rw [bloom_decode_encode]; exact h1⟩

/-- A concrete stand-in for the external 32-bit hash used in witnesses. -/
def hashLen (l : List Nat) : Nat := l.length * 131 + l.headD 0 * 7

theorem claim_C5_witness :
    Bloom.may_contain hashLen (Bloom.build_from_keys hashLen [[107], [108, 109]] 10)
      [107] = true ∧
    Bloom.may_contain hashLen (Bloom.decode (Bloom.encode
        (Bloom.build_from_keys hashLen [[107], [108, 109]] 10))) [107] = true :=
  claim_C5 hashLen [[107], [108, 109]] 10 [107] (by decide)

/-- `Wal` (`wal.rs`): modelled as the path it was created at plus the bytes
appended so far; the buffered writer and its lock are immaterial to the
byte layout. -/
structure Wal where
  path : String
  log : List Nat
deriving DecidableEq

/-- `Wal::create`. -/
def Wal.create (path : String) : Wal := { path := path, log := [] }

/-- `Wal::put`: appends `key_len:u16le | key | value_len:u16le | value`
followed by the little-endian CRC-32 of those bytes (lengths truncated to
u16 by the source's `as u16` casts). -/
def Wal.put (w : Wal) (key value : List Nat) : Wal :=
  let buf := u16le (key.length % 65536) ++ key ++ u16le (value.length % 65536) ++ value
  { w with log := w.log ++ (buf ++ u32le (crc32 buf)) }

/-- Directory/path constant used by concrete examples. -/
def walDemoPath : String := "demo.wal"

set_option maxRecDepth 8000 in
/-- C8: every successful `Wal::put(key, value)` appends exactly
`key_len:u16_le | key | value_len:u16_le | value | crc32_le` with the CRC
over the preceding record bytes; in particular `put("k","v")` on a fresh
WAL yields `01 00 'k' 01 00 'v'` followed by the little-endian CRC-32
bytes `3a bc 1d 2e`. -/
theorem claim_C8 :
    (∀ (w : Wal) (key value : List Nat),
      (Wal.put w key value).log
        = w.log
          ++ ((u16le (key.length % 65536) ++ key ++ u16le (value.length % 65536) ++ value)
            ++ u32le (crc32 (u16le (key.length % 65536) ++ key
                ++ u16le (value.length % 65536) ++ value)))) ∧
    (Wal.put (Wal.create walDemoPath) [107] [118]).log
      = [1, 0, 107, 1, 0, 118, 58, 188, 29, 46] := by
  constructor
  · intro w key value
    rfl
  · decide

/-- `MemTable` (`memtable.rs`): the concurrent skip map is modelled as an
association list (its ordering only matters for `scan`, which the source
leaves `unimplemented!`); insertion overwrites an existing key. -/
structure MemTable where
  map : List (List Nat × List Nat)
  wal : Option Wal
  id : Nat
  approximate_size : Nat
deriving DecidableEq

/-- `SkipMap::insert` on the association-list model. -/
def mapInsert : List (List Nat × List Nat) → List Nat → List Nat →
    List (List Nat × List Nat)
  | [], key, value => [(key, value)]
  | (k', v') :: rest, key, value =>
    if k' = key then (key, value) :: rest else (k', v') :: mapInsert rest key value

/-- `SkipMap::get` on the association-list model. -/
def mapGet : List (List Nat × List Nat) → List Nat → Option (List Nat)
  | [], _ => none
  | (k', v') :: rest, key => if k' = key then some v' else mapGet rest key

/-- `MemTable::new`. -/
def MemTable.new (id : Nat) : MemTable :=
  { map := [], wal := none, id := id, approximate_size := 0 }

/-- `MemTable::create_with_wal`. -/
def MemTable.create_with_wal (id : Nat) (path : String) : MemTable :=
  { map := [], wal := some (Wal.create path), id := id, approximate_size := 0 }

/-- `MemTable::get`. -/
def MemTable.get (m : MemTable) (key : List Nat) : Option (List Nat) := mapGet m.map key

/-- `MemTable::put`: the skip-map insert and the `approximate_size` bump
happen first, then the record is mirrored to the WAL if one is present.
The I/O outcome of the WAL append is the `walOk` parameter; on failure the
error propagates but the map and size updates remain in place (the source
performs no rollback). -/
def MemTable.put (m : MemTable) (key value : List Nat) (walOk : Bool) :
    MemTable × Option LsmError :=
  let estimated_size := key.length + value.length
  let m' := { m with map := mapInsert m.map key value,
                     approximate_size := m.approximate_size + estimated_size }
  match m'.wal with
  | some w => if walOk then ({ m' with wal := some (w.put key value) }, none)
              else (m', some LsmError.Io)
  | none => (m', none)

theorem mapGet_insert (l : List (List Nat × List Nat)) (key value : List Nat) :
    mapGet (mapInsert l key value) key = some value := by
  induction l with
  | nil => simp [mapInsert, mapGet]
  | cons p rest ih =>
    obtain ⟨k', v'⟩ := p
    by_cases h : k' = key
    · simp [mapInsert, h, mapGet]
    · simp [mapInsert, h, mapGet, ih]

/-- C1 (amended): when the WAL write inside `MemTable::put` fails, the error
does propagate to the caller, but because the map insert precedes the WAL
append, the in-memory map is already updated: a subsequent get of the key
returns the value of the failed put rather than what it returned before. -/
theorem claim_C1 (m : MemTable) (key value : List Nat) (hwal : m.wal.isSome = true) :
    (MemTable.put m key value false).2 = some LsmError.Io ∧
    (MemTable.put m key value false).1.get key = some value := by
  cases hw : m.wal with
  | none =>
    rw [hw] at hwal
    cases hwal
  | some w =>
    constructor
    · simp [MemTable.put, hw]
    · simp [MemTable.put, hw, MemTable.get, mapGet_insert]

theorem claim_C1_witness :
    (MemTable.put (MemTable.create_with_wal 0 walDemoPath) [107] [118] false).2
      = some LsmError.Io ∧
    (MemTable.put (MemTable.create_with_wal 0 walDemoPath) [107] [118] false).1.get [107]
      = some [118] :=
  claim_C1 (MemTable.create_with_wal 0 walDemoPath) [107] [118] (by decide)

/-- C1 as stated is false: on a fresh memtable with a WAL, a put whose WAL
write fails still updates the in-memory map — the subsequent get of the
key returns the new value, although it returned `none` before the failed
put. -/
theorem claim_C1_counterexample :
    (MemTable.create_with_wal 0 walDemoPath).get [107] = none ∧
    (MemTable.put (MemTable.create_with_wal 0 walDemoPath) [107] [118] false).2.isSome
      = true ∧
    (MemTable.put (MemTable.create_with_wal 0 walDemoPath) [107] [118] false).1.get [107]
      = some [118] := by
  decide

/-- `Footer` (`sstable.rs`). -/
structure Footer where
  file_size : Nat
  data_checksum : Nat
  index_checksum : Nat
  bloom_checksum : Nat
deriving DecidableEq

/-- `FOOTER_SIZE = 8 + 4 + 4 + 4`. -/
def FOOTER_SIZE : Nat := 8 + 4 + 4 + 4

/-- `Footer::encode`. -/
def Footer.encode (f : Footer) : List Nat :=
  u64le f.file_size ++ u32le f.data_checksum ++ u32le f.index_checksum
    ++ u32le f.bloom_checksum

/-- `BlockMeta` (`sstable.rs`). -/
structure BlockMeta where
  offset : Nat
  first_key : List Nat
deriving DecidableEq

/-- In-memory SST handle (`SsTable` in `sstable.rs`); the block cache handle
is omitted as it carries no data relevant to the build path. -/
structure SsTable where
  id : Nat
  file_path : String
  block_meta : List BlockMeta
  index_offset : Nat
  index_len : Nat
  bloom_offset : Nat
  bloom_len : Nat
  footer : Footer
deriving DecidableEq

/-- `SsTableBuilder` (`sstable.rs`). -/
structure SsTableBuilder where
  block_size : Nat
  current_block : BlockBuilder
  current_first_key : Option (List Nat)
  block_meta : List BlockMeta
  data : List Nat
  keys : List (List Nat)
deriving DecidableEq

/-- `SsTableBuilder::new`. -/
def SsTableBuilder.new (block_size : Nat) : SsTableBuilder :=
  { block_size := block_size, current_block := BlockBuilder.new block_size,
    current_first_key := none, block_meta := [], data := [], keys := [] }

/-- `SsTableBuilder::flush_current_block`: a non-empty current block is
encoded, appended to the data stream, and recorded in `block_meta` with
its start offset (`data.len() as u32`); the first key is consumed
(`take()`), failing if it was never set. -/
def SsTableBuilder.flush_current_block (b : SsTableBuilder) :
    Except LsmError SsTableBuilder :=
  if b.current_block.is_empty then Except.ok b
  else
    match b.current_first_key with
    | none => Except.error (LsmError.Format FormatReason.missingBlockFirstKey)
    | some first_key =>
      Except.ok { b with
        current_block := BlockBuilder.new b.block_size,
        current_first_key := none,
        data := b.data ++ (b.current_block.build).encode,
        block_meta := b.block_meta
          ++ [{ offset := b.data.length % 4294967296, first_key := first_key }] }

/-- `SsTableBuilder::add`: remembers the first key of a fresh block, tries
the current block, and on rejection flushes and retries in the fresh
block; failure of the retry is the fatal "entry too large for block"
error.  The `assert!` panic of `BlockBuilder::add` on an empty key is
surfaced as `AssertViolation`. -/
def SsTableBuilder.add (b : SsTableBuilder) (key value : List Nat) :
    Except LsmError SsTableBuilder :=
  let b := if b.current_block.is_empty then { b with current_first_key := some key } else b
  match BlockBuilder.add b.current_block key value with
  | none => Except.error LsmError.AssertViolation
  | some (cb, true) => Except.ok { b with current_block := cb, keys := b.keys ++ [key] }
  | some (_, false) =>
    match b.flush_current_block with
    | Except.error e => Except.error e
    | Except.ok b2 =>
      let b3 := { b2 with current_first_key := some key }
      match BlockBuilder.add b3.current_block key value with
      | none => Except.error LsmError.AssertViolation
      | some (cb, true) =>
        Except.ok { b3 with current_block := cb, keys := b3.keys ++ [key] }
      | some (_, false) =>
        Except.error (LsmError.Format FormatReason.entryTooLargeForBlock)

/-- `SsTableBuilder::finish_data_blocks`. -/
def SsTableBuilder.finish_data_blocks (b : SsTableBuilder) :
    Except LsmError SsTableBuilder :=
  if b.current_block.is_empty then Except.ok b else b.flush_current_block

/-- The index-entry loop of `SsTableBuilder::build_index_block`. -/
def indexAddAll (bb : BlockBuilder) : List BlockMeta → Except LsmError BlockBuilder
  | [] => Except.ok bb
  | meta :: rest =>
    match BlockBuilder.add bb meta.first_key (u32le meta.offset) with
    | some (bb', true) => indexAddAll bb' rest
    | some (_, false) => Except.error (LsmError.Format FormatReason.indexBlockTooLarge)
    | none => Except.error LsmError.AssertViolation

/-- `SsTableBuilder::build_index_block`: one entry per `BlockMeta` with the
first key as key and the offset as fixed 4-byte little-endian value. -/
def SsTableBuilder.build_index_block (b : SsTableBuilder) : Except LsmError (List Nat) :=
  match indexAddAll (BlockBuilder.new b.block_size) b.block_meta with
  | Except.ok bb => Except.ok (bb.build).encode
  | Except.error e => Except.error e

/-- `SsTableBuilder::build`: flushes the trailing block, builds the index
block and the bloom filter, computes the three CRC-32s, and writes data,
index, bloom and footer to the file.  The file write is modelled by
returning the written bytes alongside the handle. -/
def SsTableBuilder.build (hash : List Nat → Nat) (b : SsTableBuilder) (id : Nat)
    (path : String) : Except LsmError (SsTable × List Nat) :=
  match b.finish_data_blocks with
  | Except.error e => Except.error e
  | Except.ok b1 =>
    let data_checksum := crc32 b1.data
    match b1.build_index_block with
    | Except.error e => Except.error e
    | Except.ok index_bytes =>
      let index_checksum := crc32 index_bytes
      let bloom := Bloom.build_from_keys hash b1.keys 10
      let bloom_bytes := bloom.encode
      let bloom_checksum := crc32 bloom_bytes
      let index_offset := b1.data.length
      let index_len := index_bytes.length
      let bloom_offset := index_offset + index_len
      let bloom_len := bloom_bytes.length
      let footer_offset := bloom_offset + bloom_len
      let footer : Footer :=
        { file_size := footer_offset + FOOTER_SIZE, data_checksum := data_checksum,
          index_checksum := index_checksum, bloom_checksum := bloom_checksum }
      let file_bytes := b1.data ++ index_bytes ++ bloom_bytes ++ footer.encode
      Except.ok
        ({ id := id, file_path := path, block_meta := b1.block_meta,
           index_offset := index_offset, index_len := index_len,
           bloom_offset := bloom_offset, bloom_len := bloom_len, footer := footer },
         file_bytes)

theorem add_false_is_empty (x : BlockBuilder) (key value : List Nat) (q : BlockBuilder)
    (hke : key.isEmpty = false)
    (h : BlockBuilder.add x key value = some (q, false)) : x.is_empty = false := by
  rw [BlockBuilder.add_eq x key value hke] at h
  by_cases hc : x.data.length + x.offsets.length * 2
      + (2 + key.length + 2 + value.length) + 2 + 2 > x.block_size
      ∧ x.offsets.isEmpty = false
  · exact hc.2
  · rw [if_neg hc] at h
    simp at h

theorem add_new_true (s : Nat) (key value : List Nat) (hke : key.isEmpty = false) :
    BlockBuilder.add (BlockBuilder.new s) key value
      = some (pushEntry (BlockBuilder.new s) key value, true) := by
  rw [BlockBuilder.add_eq _ _ _ hke]
  rw [if_neg]
  intro hc
  have h2 := hc.2
  simp [BlockBuilder.new] at h2

theorem flush_error_eq (b : SsTableBuilder) (e : LsmError)
    (h : b.flush_current_block = Except.error e) :
    e = LsmError.Format FormatReason.missingBlockFirstKey := by
  unfold SsTableBuilder.flush_current_block at h
  by_cases hemp : b.current_block.is_empty = true
  · rw [if_pos hemp] at h
    cases h
  · rw [if_neg hemp] at h
    cases hfk : b.current_first_key with
    | none =>
      rw [hfk] at h
      injection h with h'
      exact h'.symm
    | some fk =>
      rw [hfk] at h
      cases h

theorem flush_ok_current_block (b b2 : SsTableBuilder)
    (hemp : ¬ b.current_block.is_empty = true)
    (h : b.flush_current_block = Except.ok b2) :
    b2.current_block = BlockBuilder.new b.block_size := by
  unfold SsTableBuilder.flush_current_block at h
  rw [if_neg hemp] at h
  cases hfk : b.current_first_key with
  | none =>
    rw [hfk] at h
    cases h
  | some fk =>
    rw [hfk] at h
    injection h with h'
    rw [← h']

/-- C10: for every non-empty key and every value, `SsTableBuilder::add`
never returns the "entry too large for block" Format error: when the
current block rejects the entry, the retry goes into a freshly started
empty block, and an empty `BlockBuilder` accepts any single entry. -/
theorem claim_C10 (b : SsTableBuilder) (key value : List Nat) (hk : key ≠ []) :
    SsTableBuilder.add b key value
      ≠ Except.error (LsmError.Format FormatReason.entryTooLargeForBlock) := by
  have hke : key.isEmpty = false := isEmpty_eq_false_of_ne_nil hk
  unfold SsTableBuilder.add
  by_cases hemp : b.current_block.is_empty = true
  · rw [if_pos hemp]
    cases hadd : BlockBuilder.add
        ({ b with current_first_key := some key } : SsTableBuilder).current_block key value with
    | none => simp [hadd]
    | some p =>
      obtain ⟨cb, acc⟩ := p
      cases acc with
      | true => simp [hadd]
      | false =>
        have hne := add_false_is_empty _ key value cb hke hadd
        have hsame : ({ b with current_first_key := some key } :
            SsTableBuilder).current_block = b.current_block := rfl
        rw [hsame] at hne
        rw [hemp] at hne
        cases hne
  · rw [if_neg hemp]
    cases hadd : BlockBuilder.add b.current_block key value with
    | none => simp [hadd]
    | some p =>
      obtain ⟨cb, acc⟩ := p
      cases acc with
      | true => simp [hadd]
      | false =>
        cases hflush : b.flush_current_block with
        | error e =>
          have he := flush_error_eq b e hflush
          subst he
          simp [hadd, hflush]
        | ok b2 =>
          have hb2 : b2.current_block = BlockBuilder.new b.block_size :=
            flush_ok_current_block b b2 hemp hflush
          have hsame : ({ b2 with current_first_key := some key } :
              SsTableBuilder).current_block = b2.current_block := rfl
          have hadd2 := add_new_true b.block_size key value hke
          simp [hadd, hflush, hsame, hb2, hadd2]

theorem claim_C10_witness :
    SsTableBuilder.add (SsTableBuilder.new 16) [5] [7]
      ≠ Except.error (LsmError.Format FormatReason.entryTooLargeForBlock) :=
  claim_C10 (SsTableBuilder.new 16) [5] [7] (by decide)

deriving instance DecidableEq for Except

theorem footer_encode_length (f : Footer) : (Footer.encode f).length = 20 := by
  simp [Footer.encode, u64le, u32le]

/-- C4: for every successful `SsTableBuilder::build`, the footer's
`file_size` equals the exact length of the written file including the
footer itself, namely `data_len + index_len + bloom_len + 20`. -/
theorem claim_C4 (hash : List Nat → Nat) (b : SsTableBuilder) (id : Nat) (path : String)
    (tbl : SsTable) (bytes : List Nat)
    (h : SsTableBuilder.build hash b id path = Except.ok (tbl, bytes)) :
    tbl.footer.file_size = bytes.length ∧
    bytes.length = tbl.index_offset + tbl.index_len + tbl.bloom_len + 20 := by
  unfold SsTableBuilder.build at h
  cases hf : b.finish_data_blocks with
  | error e =>
    rw [hf] at h
    cases h
  | ok b1 =>
    simp only [hf] at h
    cases hi : b1.build_index_block with
    | error e =>
      rw [hi] at h
      cases h
    | ok index_bytes =>
      simp only [hi] at h
      rw [Except.ok.injEq, Prod.mk.injEq] at h
      obtain ⟨ht, hby⟩ := h
      subst ht
      subst hby
      constructor
      · simp [FOOTER_SIZE, footer_encode_length]
        omega
      · simp [FOOTER_SIZE, footer_encode_length]
        omega

/-- Concrete output of building an SST from an empty builder with block
size 4096 and the `hashLen` hash: the in-memory handle. -/
def demoTbl : SsTable :=
  { id := 1, file_path := walDemoPath, block_meta := [], index_offset := 0, index_len := 2,
    bloom_offset := 2, bloom_len := 9,
    footer := { file_size := 31, data_checksum := 0, index_checksum := 1104745215,
                bloom_checksum := 258650523 } }

/-- Concrete output of the same build: the written file bytes (empty data,
a 2-byte empty index block, 9 bloom bytes, and the 20-byte footer). -/
def demoBytes : List Nat :=
  [0, 0, 0, 0, 0, 0, 0, 0, 0, 0, 6, 31, 0, 0, 0, 0, 0, 0, 0, 0, 0, 0, 0, 255, 18, 217, 65,
   155, 177, 106, 15]

set_option maxRecDepth 40000 in
theorem claim_C4_witness :
    demoTbl.footer.file_size = demoBytes.length ∧
    demoBytes.length = demoTbl.index_offset + demoTbl.index_len + demoTbl.bloom_len + 20 :=
  claim_C4 hashLen (SsTableBuilder.new 4096) 1 walDemoPath demoTbl demoBytes (by decide)

/-- C3 (amended): the file written by a successful `SsTableBuilder::build`
consists, in order, of the data block bytes, the index block bytes, the
bloom bytes and the 20-byte footer
`file_size:u64_le | data_crc:u32_le | index_crc:u32_le | bloom_crc:u32_le`;
no `bloom_len`/`index_len` fields are written before the footer. -/
theorem claim_C3 (hash : List Nat → Nat) (b : SsTableBuilder) (id : Nat) (path : String)
    (tbl : SsTable) (bytes : List Nat) (b1 : SsTableBuilder) (index_bytes : List Nat)
    (hb : SsTableBuilder.build hash b id path = Except.ok (tbl, bytes))
    (hf : b.finish_data_blocks = Except.ok b1)
    (hi : b1.build_index_block = Except.ok index_bytes) :
    bytes = b1.data ++ index_bytes
        ++ (Bloom.build_from_keys hash b1.keys 10).encode ++ tbl.footer.encode ∧
    tbl.footer.encode
      = u64le tbl.footer.file_size ++ u32le tbl.footer.data_checksum
        ++ u32le tbl.footer.index_checksum ++ u32le tbl.footer.bloom_checksum := by
  unfold SsTableBuilder.build at hb
  simp only [hf, hi] at hb
  rw [Except.ok.injEq, Prod.mk.injEq] at hb
  obtain ⟨ht, hby⟩ := hb
  subst ht
  subst hby
  exact ⟨rfl, rfl⟩

/-- Modelled from the spec: the SST file layout as the claim states it,
`data ‖ index ‖ bloom ‖ bloom_len:u32_le ‖ index_len:u32_le ‖ footer`. -/
def specSstFileLayout (data index bloom : List Nat) (footer : Footer) : List Nat :=
  data ++ index ++ bloom ++ u32le bloom.length ++ u32le index.length ++ footer.encode

set_option maxRecDepth 40000 in
theorem claim_C3_witness :
    demoBytes = (SsTableBuilder.new 4096).data ++ [0, 0]
        ++ (Bloom.build_from_keys hashLen (SsTableBuilder.new 4096).keys 10).encode
        ++ demoTbl.footer.encode ∧
    demoTbl.footer.encode
      = u64le demoTbl.footer.file_size ++ u32le demoTbl.footer.data_checksum
        ++ u32le demoTbl.footer.index_checksum ++ u32le demoTbl.footer.bloom_checksum :=
  claim_C3 hashLen (SsTableBuilder.new 4096) 1 walDemoPath demoTbl demoBytes
    (SsTableBuilder.new 4096) [0, 0] (by decide) (by decide) (by decide)

set_option maxRecDepth 40000 in
/-- C3 as stated is false: the source writes no `bloom_len`/`index_len`
fields between the bloom bytes and the footer, so the written file is 8
bytes shorter than the claimed layout of the same components. -/
theorem claim_C3_counterexample :
    SsTableBuilder.build hashLen (SsTableBuilder.new 4096) 1 walDemoPath
      = Except.ok (demoTbl, demoBytes) ∧
    demoBytes ≠ specSstFileLayout [] [0, 0] [0, 0, 0, 0, 0, 0, 0, 0, 6] demoTbl.footer := by
  constructor
  · decide
  · decide

/-- `LsmStorageState` (`lsm_storage.rs`); the id-to-handle map is modelled
as an association list. -/
structure LsmStorageState where
  memtable : MemTable
  imm_memtables : List MemTable
  l0_sstables : List Nat
  levels : List (Nat × List Nat)
  sstables : List (Nat × SsTable)
deriving DecidableEq

/-- `LsmStorage`: the state behind the lock, the directory path, and the
next SST id counter; the block cache holds no data the claims touch. -/
structure LsmStorage where
  state : LsmStorageState
  path : String
  next_sst_id : Nat
deriving DecidableEq

/-- Path separator used by `Path::join`. -/
def slashStr : String := "/"

/-- `Path::join` on string paths. -/
def pathJoin (a b : String) : String := a ++ slashStr ++ b

/-- File name of the bootstrap WAL. -/
def memWalFile : String := "mem.wal"

/-- Suffix of rotated WAL files. -/
def walSuffix : String := ".wal"

/-- Zero-padding of a decimal id to width 5, as `format!` does for
`{:05}`. -/
def pad5 (n : Nat) : String :=
  String.mk (List.replicate (5 - (Nat.repr n).length) (Char.ofNat 48)) ++ Nat.repr n

/-- `LsmStorage::open` (named `open` in the source; `open` is a Lean
keyword).  Directory creation and the manifest TODO are I/O effects
outside the model; the fresh state is exactly what the source builds. -/
def LsmStorage.openAt (path : String) : LsmStorage :=
  { state := { memtable := MemTable.create_with_wal 0 (pathJoin path memWalFile),
               imm_memtables := [], l0_sstables := [], levels := [], sstables := [] },
    path := path, next_sst_id := 1 }

/-- `LsmStorage::get`: probes the active memtable and interprets an empty
value as a tombstone; the immutable-memtable and L0 probes are `TODO`
stubs in the source, which falls through to `Ok(None)`. -/
def LsmStorage.get (s : LsmStorage) (key : List Nat) :
    Except LsmError (Option (List Nat)) :=
  match s.state.memtable.get key with
  | some value => if value = [] then Except.ok none else Except.ok (some value)
  | none => Except.ok none

/-- `LsmStorage::force_freeze_memtable`: under the write lock, re-checks
the size, then installs a fresh memtable with id `old_id + 1` and WAL
path `{id:05}.wal`, prepending the old memtable to `imm_memtables`.  WAL
creation is modelled as succeeding (on an I/O error the source returns
before modifying the state). -/
def LsmStorage.force_freeze_memtable (s : LsmStorage) : LsmStorage :=
  if s.state.memtable.approximate_size ≤ 1048576 then s
  else
    let old_memtable := s.state.memtable
    let new_id := old_memtable.id + 1
    let new_memtable := MemTable.create_with_wal new_id
      (pathJoin s.path (pad5 new_id ++ walSuffix))
    { s with state := { s.state with
        imm_memtables := old_memtable :: s.state.imm_memtables,
        memtable := new_memtable } }

/-- `LsmStorage::put`: forwards to the active memtable (whose WAL outcome
is the `walOk` parameter), then freezes when the new approximate size
exceeds the 1 MiB threshold. -/
def LsmStorage.put (s : LsmStorage) (key value : List Nat) (walOk : Bool) :
    LsmStorage × Option LsmError :=
  let r := s.state.memtable.put key value walOk
  let s' := { s with state := { s.state with memtable := r.1 } }
  match r.2 with
  | some err => (s', some err)
  | none =>
    if r.1.approximate_size > 1048576 then (s'.force_freeze_memtable, none)
    else (s', none)

/-- Engine states reachable in one instance: a fresh `open` followed by any
sequence of `put`s (each with its WAL outcome); the source calls
`force_freeze_memtable` only from `put`. -/
inductive Reachable : LsmStorage → Prop where
  | init (path : String) : Reachable (LsmStorage.openAt path)
  | step_put (s : LsmStorage) (key value : List Nat) (walOk : Bool) :
      Reachable s → Reachable (LsmStorage.put s key value walOk).1

/-- C2: the specified read path is not implemented.  `LsmStorage::get`
probes only the active memtable — the immutable-memtable and L0 probes
are `TODO` stubs — so with ("a" ↦ "1") only in `imm_memtables[0]` and an
empty active memtable, `get "a"` returns `Ok(None)` although the
immutable memtable holds the value; the claim says the value must be
returned. -/
theorem claim_C2 :
    LsmStorage.get
      { state := { memtable := MemTable.new 5,
                   imm_memtables := [{ map := [([97], [49])], wal := none, id := 4,
                                       approximate_size := 2 }],
                   l0_sstables := [], levels := [], sstables := [] },
        path := walDemoPath, next_sst_id := 1 } [97] = Except.ok none ∧
    MemTable.get { map := [([97], [49])], wal := none, id := 4, approximate_size := 2 } [97]
      = some [49] := by
  decide

theorem memPut_id (m : MemTable) (key value : List Nat) (walOk : Bool) :
    ((MemTable.put m key value walOk).1).id = m.id := by
  cases hw : m.wal with
  | none => simp [MemTable.put, hw]
  | some w => cases walOk <;> simp [MemTable.put, hw]

/-- Active-plus-immutable memtable ids, newest first. -/
def idList (s : LsmStorage) : List Nat :=
  s.state.memtable.id :: s.state.imm_memtables.map MemTable.id

theorem idChain_freeze (s : LsmStorage)
    (h : List.Chain' (fun a b => b < a) (idList s)) :
    List.Chain' (fun a b => b < a) (idList s.force_freeze_memtable) := by
  unfold LsmStorage.force_freeze_memtable
  by_cases hle : s.state.memtable.approximate_size ≤ 1048576
  · rw [if_pos hle]
    exact h
  · rw [if_neg hle]
    show List.Chain' (fun a b => b < a)
      ((s.state.memtable.id + 1)
        :: (s.state.memtable :: s.state.imm_memtables).map MemTable.id)
    rw [List.map_cons]
    exact List.chain'_cons.mpr ⟨by omega, h⟩

theorem idChain_put (s : LsmStorage) (key value : List Nat) (walOk : Bool)
    (h : List.Chain' (fun a b => b < a) (idList s)) :
    List.Chain' (fun a b => b < a) (idList (LsmStorage.put s key value walOk).1) := by
  unfold LsmStorage.put
  have hid := memPut_id s.state.memtable key value walOk
  cases he : (s.state.memtable.put key value walOk).2 with
  | some err =>
    simp only [he]
    show List.Chain' (fun a b => b < a)
      (((s.state.memtable.put key value walOk).1).id
        :: s.state.imm_memtables.map MemTable.id)
    rw [hid]
    exact h
  | none =>
    simp only [he]
    by_cases hgt : ((s.state.memtable.put key value walOk).1).approximate_size > 1048576
    · rw [if_pos hgt]
      apply idChain_freeze
      show List.Chain' (fun a b => b < a)
        (((s.state.memtable.put key value walOk).1).id
          :: s.state.imm_memtables.map MemTable.id)
      rw [hid]
      exact h
    · rw [if_neg hgt]
      show List.Chain' (fun a b => b < a)
        (((s.state.memtable.put key value walOk).1).id
          :: s.state.imm_memtables.map MemTable.id)
      rw [hid]
      exact h

theorem chain_gt_head (a : Nat) (l : List Nat)
    (h : List.Chain' (fun x y => y < x) (a :: l)) : ∀ b ∈ l, b < a := by
  induction l generalizing a with
  | nil => simp
  | cons c t ih =>
    rw [List.chain'_cons] at h
    intro b hb
    rcases List.mem_cons.1 hb with hb | hb
    · subst hb
      exact h.1
    · have := ih c h.2 b hb
      omega

/-- C9: in one engine instance, every memtable's id strictly dominates the
ids of all memtables created before it (the active id strictly dominates
the immutable list, which is itself strictly descending); a freeze of an
oversized active memtable installs a new active memtable with id
`old + 1` (the previous maximum by the invariant), prepends the old
active memtable at position 0 of `imm_memtables`, and gives the new
memtable a WAL at path `{id:05}.wal`. -/
theorem claim_C9 :
    (∀ s, Reachable s → List.Chain' (fun a b => b < a) (idList s)) ∧
    (∀ s : LsmStorage, 1048576 < s.state.memtable.approximate_size →
      (s.force_freeze_memtable).state.memtable.id = s.state.memtable.id + 1 ∧
      (s.force_freeze_memtable).state.imm_memtables
        = s.state.memtable :: s.state.imm_memtables ∧
      (s.force_freeze_memtable).state.memtable.wal
        = some (Wal.create (pathJoin s.path (pad5 (s.state.memtable.id + 1)
            ++ walSuffix)))) ∧
    (∀ s, Reachable s → ∀ m ∈ s.state.imm_memtables, m.id < s.state.memtable.id) := by
  have hchain : ∀ s, Reachable s → List.Chain' (fun a b => b < a) (idList s) := by
    intro s hs
    induction hs with
    | init path => simp [idList, LsmStorage.openAt]
    | step_put s key value walOk _ ih => exact idChain_put s key value walOk ih
  refine ⟨hchain, ?_, ?_⟩
  · intro s hgt
    unfold LsmStorage.force_freeze_memtable
    rw [if_neg (by omega)]
    exact ⟨rfl, rfl, rfl⟩
  · intro s hs m hm
    have h := chain_gt_head _ _ (hchain s hs)
    exact h m.id (List.mem_map_of_mem MemTable.id hm)

/-- Concrete oversized state used to instantiate the freeze behaviour. -/
def demoFreezeState : LsmStorage :=
  { state := { memtable := { map := [], wal := none, id := 3, approximate_size := 1048577 },
               imm_memtables := [], l0_sstables := [], levels := [], sstables := [] },
    path := walDemoPath, next_sst_id := 1 }

theorem claim_C9_witness :
    List.Chain' (fun a b => b < a) (idList (LsmStorage.openAt walDemoPath)) ∧
    ((demoFreezeState.force_freeze_memtable).state.memtable.id
        = demoFreezeState.state.memtable.id + 1 ∧
      (demoFreezeState.force_freeze_memtable).state.imm_memtables
        = demoFreezeState.state.memtable :: demoFreezeState.state.imm_memtables ∧
      (demoFreezeState.force_freeze_memtable).state.memtable.wal
        = some (Wal.create (pathJoin demoFreezeState.path
            (pad5 (demoFreezeState.state.memtable.id + 1) ++ walSuffix)))) :=
  ⟨claim_C9.1 (LsmStorage.openAt walDemoPath) (Reachable.init walDemoPath),
   claim_C9.2.1 demoFreezeState (by decide)⟩

end MiniLsm
